import Mathlib

/-!
Verification of the core parsing engine of the GCode Tool Extractor
(`gcode_tool_extractor_gui.py`).

The Python core is embedded shallowly: each helper function of the source is
translated into a total, computable Lean function over `String` / `List Char`.
The regular expressions of the source are small and fixed, so each one is
translated into a dedicated scanner that reproduces the semantics of the
Python `re` engine on that pattern (anchoring, greedy and non-greedy
backtracking, non-overlapping `finditer` scans, word boundaries).
Modelling conventions: `\d` and `[A-Z]` are read as ASCII character classes,
`\s` and `str.strip` use the Python whitespace set, and `str.splitlines`
splits on the Python line-break set, with `\r\n` as a single break.
-/

namespace GCode

/-- Python whitespace (`str.isspace`, and the `\s` class of `re`). -/
def isPySpace (c : Char) : Bool :=
  (9 ≤ c.toNat && c.toNat ≤ 13) || (28 ≤ c.toNat && c.toNat ≤ 31) ||
  c.toNat = 32 || c.toNat = 133 || c.toNat = 160 || c.toNat = 5760 ||
  (8192 ≤ c.toNat && c.toNat ≤ 8202) || c.toNat = 8232 || c.toNat = 8233 ||
  c.toNat = 8239 || c.toNat = 8287 || c.toNat = 12288

/-- Line-break characters recognised by Python `str.splitlines`. -/
def isLineBreakChar (c : Char) : Bool :=
  (10 ≤ c.toNat && c.toNat ≤ 13) || (28 ≤ c.toNat && c.toNat ≤ 30) ||
  c.toNat = 133 || c.toNat = 8232 || c.toNat = 8233

/-- ASCII decimal digit: the `\d` class of the source's patterns. -/
def isDig (c : Char) : Bool :=
  48 ≤ c.toNat && c.toNat ≤ 57

/-- Word character for `\b` boundaries (`\w`): ASCII alphanumeric or underscore. -/
def isWordChar (c : Char) : Bool :=
  c.isAlphanum || c = '_'

/-- `str.splitlines`, accumulator form. -/
def splitlinesAux : List Char → List Char → List String
  | [], acc => if acc.isEmpty then [] else [String.mk acc.reverse]
  | '\r' :: '\n' :: rest, acc => String.mk acc.reverse :: splitlinesAux rest []
  | c :: rest, acc =>
      if isLineBreakChar c then String.mk acc.reverse :: splitlinesAux rest []
      else splitlinesAux rest (c :: acc)

/-- Python `str.splitlines` (no kept line ends). -/
def splitlines (s : String) : List String :=
  splitlinesAux s.data []

/-- Python `str.strip()` on a character list. -/
def pyStripL (cs : List Char) : List Char :=
  ((cs.dropWhile isPySpace).reverse.dropWhile isPySpace).reverse

/-- Python `str.strip()`. -/
def pyStrip (s : String) : String :=
  String.mk (pyStripL s.data)

/-- `re.sub(r'^\s*[A-Z]\s*-\s*', '', s)` on a character list: the pattern is
anchored, so at most the leading "letter dash" run is removed; when the
pattern does not match, the input is returned unchanged. -/
def stripLetterDashL (cs : List Char) : List Char :=
  match cs.dropWhile isPySpace with
  | c :: rest =>
      if 'A' ≤ c ∧ c ≤ 'Z' then
        match rest.dropWhile isPySpace with
        | '-' :: rest2 => rest2.dropWhile isPySpace
        | _ => cs
      else cs
  | [] => cs

/-- `re.sub(r'^\s*[A-Z]\s*-\s*', '', s)`. -/
def stripLetterDash (s : String) : String :=
  String.mk (stripLetterDashL s.data)

/-- ASCII-lowercase a character list (the `re.I` flag of the noise patterns). -/
def lcL (cs : List Char) : List Char :=
  cs.map Char.toLower

/-- Case-insensitive literal prefix test: does `cs` start with the (lowercase)
word `w`?  Used for the anchored noise patterns. -/
def startsWithCI (w : List Char) (cs : List Char) : Bool :=
  (lcL cs).take w.length == w

/-- Case-insensitive anchored word test `^\s*w\b` (the pattern word ends in
a word character, so the boundary holds iff the next character is absent or
not a word character). -/
def anchoredWordCI (w : List Char) (cs : List Char) : Bool :=
  let t := cs.dropWhile isPySpace
  startsWithCI w t &&
    (match (lcL t).drop w.length with
     | [] => true
     | c :: _ => !isWordChar c)

/-- One attempt of `\bw\b` at the current position: `prevNonWord` says the
previous character (if any) is not a word character. -/
def wordHereCI (w : List Char) (prevNonWord : Bool) (cs : List Char) : Bool :=
  prevNonWord && startsWithCI w cs &&
    (match (lcL cs).drop w.length with
     | [] => true
     | c :: _ => !isWordChar c)

/-- Search for `\bw\b` (case-insensitive) anywhere in `cs`; `prev` is the
character preceding `cs`, if any. -/
def containsWordCI (w : List Char) (prev : Option Char) : List Char → Bool
  | [] => false
  | c :: rest =>
      wordHereCI w (match prev with | none => true | some p => !isWordChar p) (c :: rest) ||
      containsWordCI w (some c) rest

/-- One attempt of `\bw` (no trailing boundary) at the current position. -/
def wordStartHereCI (w : List Char) (prevNonWord : Bool) (cs : List Char) : Bool :=
  prevNonWord && startsWithCI w cs

/-- Search for `\bw` (case-insensitive) anywhere in `cs`. -/
def containsWordStartCI (w : List Char) (prev : Option Char) : List Char → Bool
  | [] => false
  | c :: rest =>
      wordStartHereCI w (match prev with | none => true | some p => !isWordChar p) (c :: rest) ||
      containsWordStartCI w (some c) rest

/-- The fixed `IGNORE_COMMENT_PATTERNS` test: does any of the five
case-insensitive boilerplate patterns match `s` (via `re.search`)?
  1. `^\s*(created by|date|time)\b`
  2. `^\s*(operation|timely)\b`
  3. `\bsend to home\b`
  4. `^\s*inch\s*$`
  5. `\bopen mind` -/
def matchesIgnoredComment (cs : List Char) : Bool :=
  anchoredWordCI "created by".data cs ||
  anchoredWordCI "date".data cs ||
  anchoredWordCI "time".data cs ||
  anchoredWordCI "operation".data cs ||
  anchoredWordCI "timely".data cs ||
  containsWordCI "send to home".data none cs ||
  lcL (pyStripL cs) == "inch".data ||
  containsWordStartCI "open mind".data none cs

/-- `is_noise_comment`: strip, remove a leading letter-dash prefix, reject
short strings, then test the boilerplate patterns. -/
def is_noise_comment (txt : String) : Bool :=
  let s := stripLetterDashL (pyStripL txt.data)
  if s.length < 3 then true
  else matchesIgnoredComment s

/-- The tail of the anchored pattern `\((.+?)\)\s*$`, entered just after the
opening parenthesis: the lazy group tries each closing parenthesis in order
(content must be non-empty and free of `\n`, since `.` does not match a
newline) and succeeds at the first one followed only by whitespace. -/
def parenToEnd (acc : List Char) : List Char → Option (List Char)
  | [] => none
  | c :: tl =>
      if c = ')' && !acc.isEmpty && tl.all isPySpace then some acc.reverse
      else if c = '\n' then none
      else parenToEnd (c :: acc) tl

/-- The part of `^\s*O\d+\s*\((.+?)\)\s*$` after the literal `O`: one or more
digits, optional whitespace, then the parenthesised group; the group content
is returned `.strip()`-ed, as in the source. -/
def afterO (rest : List Char) : Option String :=
  let ds := rest.takeWhile isDig
  if ds.isEmpty then none
  else
    match (rest.dropWhile isDig).dropWhile isPySpace with
    | '(' :: r2 => (parenToEnd [] r2).map (fun g => String.mk (pyStripL g))
    | _ => none

/-- `re.search(r'^\s*O\d+\s*\((.+?)\)\s*$', line)`, returning the trimmed
group.  The pattern is anchored at the line start by `^` (no `re.M`). -/
def matchOHeader (line : String) : Option String :=
  match line.data.dropWhile isPySpace with
  | 'O' :: rest => afterO rest
  | _ => none

/-- `re.search(r'^\s*\((.+?)\)\s*$', line)`, returning the trimmed group:
a line that is entirely one parenthesised group up to surrounding
whitespace. -/
def matchParenOnly (line : String) : Option String :=
  match line.data.dropWhile isPySpace with
  | '(' :: rest => (parenToEnd [] rest).map (fun g => String.mk (pyStripL g))
  | _ => none

/-- Does the line contain a literal `%` (Python `'%' in line`)? -/
def hasPercent (line : String) : Bool :=
  line.data.contains '%'

/-- The second strategy of `extract_program_name`: walk the lines keeping the
`seen_percent` flag; a line containing `%` sets the flag and is skipped
(`continue`); once the flag is set, the first line matching
`^\s*\((.+?)\)\s*$` supplies the name. -/
def s2aux (seen : Bool) : List String → Option String
  | [] => none
  | l :: ls =>
      if hasPercent l then s2aux true ls
      else if seen then
        match matchParenOnly l with
        | some n => some n
        | none => s2aux seen ls
      else s2aux seen ls

/-- `extract_program_name`: prefer the first line matching the `O`-header
pattern; otherwise fall back to the percent-marker strategy. -/
def extract_program_name (text : String) : Option String :=
  let lines := splitlines text
  match lines.findSome? matchOHeader with
  | some n => some n
  | none => s2aux false lines

/-- The lazy group of `\((.+?)\)` entered just after an opening parenthesis:
content of at least one character (any character except `\n`), closed by the
first possible `)`. -/
def scanContent (acc : List Char) : List Char → Option (List Char × List Char)
  | [] => none
  | c :: tl =>
      if c = ')' && !acc.isEmpty then some (acc.reverse, tl)
      else if c = '\n' then none
      else scanContent (c :: acc) tl

/-- The scan loop of `re.findall(r'\((.+?)\)', line)`: all non-overlapping
lazy parenthesised groups, left to right.  The fuel argument only makes the
recursion structural: every step drops at least one character, so starting
the fuel at the length of the list never exhausts it. -/
def findallParenGo : Nat → List Char → List String
  | _, [] => []
  | 0, _ => []
  | fuel + 1, '(' :: rest =>
      (match scanContent [] rest with
       | some (content, tl) => String.mk content :: findallParenGo fuel tl
       | none => findallParenGo fuel rest)
  | fuel + 1, _ :: rest => findallParenGo fuel rest

/-- `re.findall(r'\((.+?)\)', line)` (`_comments_on_line` in the source). -/
def findallParen (cs : List Char) : List String :=
  findallParenGo cs.length cs

/-- `_comments_on_line`: the contents of every `(...)` group on the line. -/
def _comments_on_line (line : String) : List String :=
  findallParen line.data

/-- The per-line candidate scan of `_nearest_good_comment`: the comments of
the line in reverse order of appearance; each is stripped, its letter-dash
prefix removed; the first candidate not classified as noise wins. -/
def goodFrom (cms : List String) : Option String :=
  cms.reverse.findSome? fun c =>
    let cand := stripLetterDash (pyStrip c)
    if is_noise_comment cand then none else some cand

/-- The backward loop of `_nearest_good_comment`:
`for j in range(start_idx-1, max(-1, start_idx-search_back-1), -1)`,
running `n` iterations with `j` descending from its first value. -/
def lookBack (lines : List String) : Nat → Nat → String
  | _, 0 => ""
  | j, n + 1 =>
      match goodFrom (_comments_on_line (lines.getD j "")) with
      | some c => c
      | none => lookBack lines (j - 1) n

/-- `_nearest_good_comment(lines, start_idx, search_back=25)`: same-line
comments first (last comment preferred), then up to `search_back` previous
lines, nearest first; empty string when nothing qualifies. -/
def _nearest_good_comment (lines : List String) (start_idx : Nat)
    (search_back : Nat := 25) : String :=
  match goodFrom (_comments_on_line (lines.getD start_idx "")) with
  | some c => c
  | none => lookBack lines (start_idx - 1) (min start_idx search_back)

/-- Numeric value of one ASCII digit (`int` of a 1-digit group). -/
def val1 (c : Char) : Nat := c.toNat - 48

/-- Numeric value of two ASCII digits (`int` of a 2-digit group). -/
def val2 (c1 c2 : Char) : Nat := 10 * (c1.toNat - 48) + (c2.toNat - 48)

/-- `re.finditer(r'T(\d{2})(\d{2})', line)`: every non-overlapping `T`
followed by four digits; the value of the first two digits is collected
(the lathe convention).  On a failed attempt the scan restarts one
character later. -/
def latheFinds : List Char → List Nat
  | [] => []
  | c :: d1 :: d2 :: d3 :: d4 :: tail =>
      if c = 'T' && isDig d1 && isDig d2 && isDig d3 && isDig d4 then
        val2 d1 d2 :: latheFinds tail
      else latheFinds (d1 :: d2 :: d3 :: d4 :: tail)
  | _ :: rest => latheFinds rest

/-- `re.finditer(r'T(\d{1,2})(?!\d)', line)`: every non-overlapping `T`
followed by one or two digits with no further digit (greedy group with a
negative lookahead, so three or more digits after `T` match nothing there);
the digit value is collected (the mill convention). -/
def millFinds : List Char → List Nat
  | [] => []
  | [_] => []
  | [c, d1] =>
      if c = 'T' then
        if isDig d1 then [val1 d1] else millFinds [d1]
      else millFinds [d1]
  | [c, d1, d2] =>
      if c = 'T' then
        if isDig d1 then
          if isDig d2 then [val2 d1 d2]
          else val1 d1 :: millFinds [d2]
        else millFinds [d1, d2]
      else millFinds [d1, d2]
  | c :: d1 :: d2 :: d3 :: tail =>
      if c = 'T' then
        if isDig d1 then
          if isDig d2 then
            if isDig d3 then millFinds (d1 :: d2 :: d3 :: tail)
            else val2 d1 d2 :: millFinds (d3 :: tail)
          else val1 d1 :: millFinds (d2 :: d3 :: tail)
        else millFinds (d1 :: d2 :: d3 :: tail)
      else millFinds (d1 :: d2 :: d3 :: tail)

/-- `tools.setdefault(t, d)` on the insertion-ordered association-list model
of the Python dict: insert only when the key is absent. -/
def setdefault (m : List (Nat × String)) (t : Nat) (d : String) :
    List (Nat × String) :=
  if (List.lookup t m).isSome then m else m ++ [(t, d)]

/-- The tool events of one line of `extract_tools`, in the order the loop
body produces them: first the lathe matches, then the mill matches, each
paired with the nearest good comment for that line. -/
def lineEvents (lines : List String) (idx : Nat) : List (Nat × String) :=
  let line := (lines.getD idx "").data
  (latheFinds line ++ millFinds line).map
    fun t => (t, _nearest_good_comment lines idx)

/-- All tool events of the text, line by line in document order. -/
def toolEvents (text : String) : List (Nat × String) :=
  let lines := splitlines text
  (List.range lines.length).flatMap fun idx => lineEvents lines idx

/-- `extract_tools`: fold `setdefault` over the events (first occurrence of
a tool number wins). -/
def extract_tools (text : String) : List (Nat × String) :=
  (toolEvents text).foldl (fun m e => setdefault m e.1 e.2) []

/-- `program_name or "UNKNOWN PROGRAM"`: Python `or` falls through on `None`
and on the empty string. -/
def headerName : Option String → String
  | some n => if n = "" then "UNKNOWN PROGRAM" else n
  | none => "UNKNOWN PROGRAM"

/-- `f"T{t:02d}"`: zero-pad the tool number to at least two digits. -/
def padT (t : Nat) : String :=
  if t < 10 then "T0" ++ toString t else "T" ++ toString t

/-- `"\n".join(lines)`. -/
def joinNL : List String → String
  | [] => ""
  | [x] => x
  | x :: y :: xs => x ++ "\n" ++ joinNL (y :: xs)

/-- One body line of the report: the description is looked up and stripped;
when it is empty only the padded tool number is printed. -/
def toolLine (tools : List (Nat × String)) (t : Nat) : String :=
  let desc := pyStrip ((List.lookup t tools).getD "")
  if desc = "" then padT t else padT t ++ " - " ++ desc

/-- Ascending insertion of a number into a sorted list. -/
def insNat (x : Nat) : List Nat → List Nat
  | [] => [x]
  | y :: ys => if x ≤ y then x :: y :: ys else y :: insNat x ys

/-- Ascending sort (`sorted(tools.keys())`). -/
def sortNats (l : List Nat) : List Nat :=
  l.foldr insNat []

/-- `format_tool_list`: header, blank line, then either `(No tools found)`
or one line per tool in ascending key order. -/
def format_tool_list (program_name : Option String)
    (tools : List (Nat × String)) : String :=
  let hdr := "Tool List for ( " ++ headerName program_name ++ " )."
  if tools.isEmpty then joinNL [hdr, "", "(No tools found)"]
  else joinNL (hdr :: "" :: (sortNats (tools.map Prod.fst)).map (toolLine tools))

/-! ## Occurrence predicates

Character-level descriptions of the tool tokens, written from the spec's
wording: a mill occurrence is a `T` followed by exactly one or two digits
with no further digit; a lathe occurrence is a `T` followed by four
consecutive digits, of which the first two give the tool number. -/

/-- A mill occurrence at the head of the list: `T`, then exactly one or two
digits not followed by a further digit, read as the value `t`. -/
def millHeadB (l : List Char) (t : Nat) : Bool :=
  match l with
  | [] => false
  | [_] => false
  | [c, d1] => c == 'T' && isDig d1 && t == val1 d1
  | c :: d1 :: d2 :: rest =>
      c == 'T' && isDig d1 &&
        (if isDig d2 then
           (match rest with | [] => true | d3 :: _ => !isDig d3) && t == val2 d1 d2
         else t == val1 d1)

/-- A mill occurrence at position `p` of `cs` with tool number `t`. -/
def millOccB (cs : List Char) (p t : Nat) : Bool :=
  millHeadB (cs.drop p) t

/-- A lathe occurrence at the head of the list: `T` followed by four digits;
`t` is the value of the first two, the last two being ignored. -/
def latheHeadB (l : List Char) (t : Nat) : Bool :=
  match l with
  | c :: d1 :: d2 :: d3 :: d4 :: _ =>
      c == 'T' && isDig d1 && isDig d2 && isDig d3 && isDig d4 && t == val2 d1 d2
  | _ => false

/-- A lathe occurrence at position `p` of `cs` with tool number `t`. -/
def latheOccB (cs : List Char) (p t : Nat) : Bool :=
  latheHeadB (cs.drop p) t

/-- Spec-side resolver, written from the claim: try the indexed line, then up
to `w` prior lines nearest first; on each line test the parenthesised
substrings in reverse appearance order, strip and remove the letter-dash
prefix, and take the first candidate not classified as noise; default to the
empty string. -/
def nearest_comment_spec (lines : List String) (idx w : Nat) : String :=
  (((List.range (min idx w + 1)).map fun k => idx - k).findSome?
      fun j => goodFrom (_comments_on_line (lines.getD j ""))).getD ""

/-- Index of the first line containing a literal percent character. -/
def firstPercentIdx : List String → Option Nat
  | [] => none
  | l :: ls => if hasPercent l then some 0 else (firstPercentIdx ls).map (· + 1)

/-- Strategy 2 exactly as the claim words it: once a percent-marker line has
been seen, the first subsequent line that is entirely a parenthesised group
(nothing else but surrounding whitespace) supplies the trimmed name. -/
def strategy2_claim (lines : List String) : Option String :=
  match firstPercentIdx lines with
  | some i => (lines.drop (i + 1)).findSome? matchParenOnly
  | none => none

/-- Strategy 2 as the code behaves: lines containing a percent character are
themselves skipped as candidates (the `continue` in the loop). -/
def strategy2_amended (lines : List String) : Option String :=
  match firstPercentIdx lines with
  | some i =>
      (lines.drop (i + 1)).findSome? fun l =>
        if hasPercent l then none else matchParenOnly l
  | none => none

/-- One attempt of the claim's pattern at the current position: a word-start
(the previous character, if any, is not a word character), the letter `O`,
one or more digits, optional whitespace, a parenthesised group, optional
whitespace, end of line; the trimmed group is returned. -/
def wbTryO (prevNonWord : Bool) (cs : List Char) : Option String :=
  if prevNonWord then
    match cs with
    | 'O' :: rest => afterO rest
    | _ => none
  else none

/-- `re.search` of the claim's word-start form `\bO\d+\s*\((.+?)\)\s*$`:
try every position of the line, leftmost first. -/
def wbOHeaderGo (prev : Option Char) : List Char → Option String
  | [] => none
  | c :: rest =>
      match wbTryO (match prev with | none => true | some p => !isWordChar p)
          (c :: rest) with
      | some n => some n
      | none => wbOHeaderGo (some c) rest

/-- The claim's strategy-1 pattern, anchored only at a word-start. -/
def wbOHeader (line : String) : Option String :=
  wbOHeaderGo none line.data

/-- The claim's renderer, descriptions taken verbatim (no stripping): header
line, blank line, then one line per tool in ascending key order —
`T<NN> - <description>` when the description is non-empty, else `T<NN>`;
`(No tools found)` for an empty map. -/
def specFormatClaim (program_name : Option String)
    (tools : List (Nat × String)) : String :=
  let hdr := "Tool List for ( " ++ headerName program_name ++ " )."
  let body :=
    if tools.isEmpty then ["(No tools found)"]
    else
      (List.insertionSort (· ≤ ·) (tools.map Prod.fst)).map fun t =>
        let desc := (List.lookup t tools).getD ""
        if desc = "" then padT t else padT t ++ " - " ++ desc
  hdr ++ "\n" ++ "\n" ++ joinNL body

/-- The amended renderer: identical, but each description is stripped of
surrounding whitespace before the emptiness test and the rendering. -/
def specFormatStrip (program_name : Option String)
    (tools : List (Nat × String)) : String :=
  let hdr := "Tool List for ( " ++ headerName program_name ++ " )."
  let body :=
    if tools.isEmpty then ["(No tools found)"]
    else
      (List.insertionSort (· ≤ ·) (tools.map Prod.fst)).map fun t =>
        let desc := pyStrip ((List.lookup t tools).getD "")
        if desc = "" then padT t else padT t ++ " - " ++ desc
  hdr ++ "\n" ++ "\n" ++ joinNL body

/-! ## Generic lemmas about the model -/

theorem lookup_foldl_setdefault (evs : List (Nat × String)) :
    ∀ (m : List (Nat × String)) (t : Nat),
      List.lookup t (evs.foldl (fun m e => setdefault m e.1 e.2) m) =
        (List.lookup t m).or (((evs.find? fun e => e.1 == t).map Prod.snd)) := by
  induction evs with
  | nil => intro m t; simp
  | cons e evs ih =>
      intro m t
      rw [List.foldl_cons, ih]
      rcases e with ⟨k, d⟩
      by_cases hm : (List.lookup k m).isSome
      · have hsd : setdefault m k d = m := by simp [setdefault, hm]
        rw [hsd, List.find?_cons]
        by_cases hk : k = t
        · subst hk
          obtain ⟨d0, hd0⟩ := Option.isSome_iff_exists.mp hm
          simp [hd0]
        · simp only [hk]
          have : ((k, d).1 == t) = false := by simpa using hk
          simp [this]
      · have hnone : List.lookup k m = none := Option.not_isSome_iff_eq_none.mp hm
        have hsd : setdefault m k d = m ++ [(k, d)] := by simp [setdefault, hm]
        rw [hsd, List.lookup_append, List.find?_cons]
        by_cases hk : k = t
        · subst hk
          simp [hnone]
        · have h1 : ((k, d).1 == t) = false := by simpa using hk
          have h2 : List.lookup t [(k, d)] = none := by
            have : (t == k) = false := by simp [Ne.symm hk]
            simp [List.lookup_cons, this]
          simp [h1, h2]

theorem extract_tools_lookup (text : String) (t : Nat) :
    List.lookup t (extract_tools text) =
      ((toolEvents text).find? fun e => e.1 == t).map Prod.snd := by
  unfold extract_tools
  rw [lookup_foldl_setdefault]
  simp

theorem find?_of_filter_cons {α : Type} {p : α → Bool} :
    ∀ {l : List α} {x : α} {xs : List α},
      l.filter p = x :: xs → l.find? p = some x := by
  intro l
  induction l with
  | nil => intro x xs h; simp at h
  | cons a as ih =>
      intro x xs h
      rw [List.filter_cons] at h
      rw [List.find?_cons]
      by_cases hp : p a
      · simp only [hp, if_true, List.cons.injEq] at h
        obtain ⟨rfl, -⟩ := h
        simp [hp]
      · simp only [hp] at h ⊢
        simp only [Bool.false_eq_true, if_false] at h
        exact ih h

theorem mem_foldl_setdefault :
    ∀ (evs : List (Nat × String)) (m : List (Nat × String)) (x : Nat × String),
      x ∈ evs.foldl (fun m e => setdefault m e.1 e.2) m →
        x ∈ m ∨ x.1 ∈ evs.map Prod.fst := by
  intro evs
  induction evs with
  | nil => intro m x h; simp at h; exact Or.inl h
  | cons e evs ih =>
      intro m x h
      rw [List.foldl_cons] at h
      rcases ih _ _ h with h' | h'
      · unfold setdefault at h'
        split at h'
        · exact Or.inl h'
        · rcases List.mem_append.mp h' with h'' | h''
          · exact Or.inl h''
          · simp at h''
            subst h''
            right
            simp
      · right
        simp [h']

/-! ## Bounds on extracted tool numbers -/

theorem isDig_val {c : Char} (h : isDig c = true) : c.toNat - 48 ≤ 9 := by
  simp [isDig] at h
  omega

theorem val2_le {c1 c2 : Char} (h1 : isDig c1 = true) (h2 : isDig c2 = true) :
    val2 c1 c2 ≤ 99 := by
  have := isDig_val h1
  have := isDig_val h2
  unfold val2
  omega

theorem val1_le {c : Char} (h : isDig c = true) : val1 c ≤ 99 := by
  have := isDig_val h
  unfold val1
  omega

theorem latheFinds_eq_skip {head : Char} {rest : List Char}
    (h1 : ∀ (d1 d2 d3 d4 : Char) (tail : List Char),
      rest = d1 :: d2 :: d3 :: d4 :: tail → False) :
    latheFinds (head :: rest) = latheFinds rest := by
  rw [latheFinds.eq_def]
  split
  · rename_i heq
    exact List.noConfusion heq
  · rename_i c d1 d2 d3 d4 tail heq
    injection heq with h h'
    exact (h1 _ _ _ _ _ h').elim
  · rename_i x a as heq
    injection heq with h h'
    rw [h']

theorem latheFinds_le : ∀ (cs : List Char), ∀ t ∈ latheFinds cs, t ≤ 99 := by
  intro cs
  induction cs using latheFinds.induct with
  | case1 => simp [latheFinds]
  | case2 c d1 d2 d3 d4 tail hd ih =>
      rw [latheFinds, if_pos hd]
      intro t ht
      rcases List.mem_cons.mp ht with h | h
      · subst h
        simp only [Bool.and_eq_true] at hd
        exact val2_le hd.1.1.1.2 hd.1.1.2
      · exact ih t h
  | case3 c d1 d2 d3 d4 tail hd ih =>
      rw [latheFinds, if_neg hd]
      exact ih
  | case4 head rest h1 ih =>
      rw [latheFinds_eq_skip h1]
      exact ih

theorem millFinds_le : ∀ (cs : List Char), ∀ t ∈ millFinds cs, t ≤ 99 := by
  intro cs
  induction cs using millFinds.induct with
  | case1 => simp [millFinds]
  | case2 head => simp [millFinds]
  | case3 d1 h1 =>
      intro t ht
      simp [millFinds, h1] at ht
      subst ht
      exact val1_le h1
  | case4 d1 h1 ih =>
      intro t ht
      simp [millFinds, h1] at ht
  | case5 c d1 hc ih =>
      intro t ht
      simp [millFinds, hc] at ht
  | case6 d1 d2 h1 h2 =>
      intro t ht
      simp [millFinds, h1, h2] at ht
      subst ht
      exact val2_le h1 h2
  | case7 d1 d2 h1 h2 ih =>
      intro t ht
      simp [millFinds, h1, h2] at ht
      subst ht
      exact val1_le h1
  | case8 d1 d2 h1 ih =>
      intro t ht
      simp [millFinds, h1] at ht
      obtain ⟨-, h2', rfl⟩ := ht
      exact val1_le h2'
  | case9 c d1 d2 hc ih =>
      intro t ht
      simp [millFinds, hc] at ht
      obtain ⟨-, h2', rfl⟩ := ht
      exact val1_le h2'
  | case10 d1 d2 d3 tail h1 h2 h3 ih =>
      intro t ht
      simp [millFinds, h1, h2, h3] at ht
      exact ih t ht
  | case11 d1 d2 d3 tail h1 h2 h3 ih =>
      intro t ht
      simp [millFinds, h1, h2, h3] at ht
      rcases ht with h | h
      · subst h; exact val2_le h1 h2
      · exact ih t h
  | case12 d1 d2 d3 tail h1 h2 ih =>
      intro t ht
      simp [millFinds, h1, h2] at ht
      rcases ht with h | h
      · subst h; exact val1_le h1
      · exact ih t h
  | case13 d1 d2 d3 tail h1 ih =>
      intro t ht
      simp [millFinds, h1] at ht
      exact ih t ht
  | case14 c d1 d2 d3 tail hc ih =>
      intro t ht
      simp [millFinds, hc] at ht
      exact ih t ht

theorem isDig_ne_T {c : Char} (h : isDig c = true) : ¬c = 'T' := by
  intro he
  subst he
  exact absurd h (by decide)

theorem millOccB_step {a : Char} {l : List Char} {n t : Nat} :
    millOccB (a :: l) (n + 1) t = millOccB l n t := by
  simp [millOccB, List.drop_succ_cons]

theorem millOccB_zero {l : List Char} {t : Nat} :
    millOccB l 0 t = millHeadB l t := by
  simp [millOccB]

theorem latheOccB_step {a : Char} {l : List Char} {n t : Nat} :
    latheOccB (a :: l) (n + 1) t = latheOccB l n t := by
  simp [latheOccB, List.drop_succ_cons]

theorem latheOccB_zero {l : List Char} {t : Nat} :
    latheOccB l 0 t = latheHeadB l t := by
  simp [latheOccB]

theorem millHeadB_T {l : List Char} {t : Nat} (h : millHeadB l t = true) :
    ∃ rest, l = 'T' :: rest := by
  rcases l with - | ⟨c, - | ⟨d1, rest⟩⟩
  · simp [millHeadB] at h
  · simp [millHeadB] at h
  · rcases rest with - | ⟨d2, rest⟩
    · simp only [millHeadB, Bool.and_eq_true, beq_iff_eq] at h
      exact ⟨[d1], by rw [h.1.1]⟩
    · simp only [millHeadB, Bool.and_eq_true, beq_iff_eq] at h
      exact ⟨d1 :: d2 :: rest, by rw [h.1.1]⟩

theorem latheHeadB_T {l : List Char} {t : Nat} (h : latheHeadB l t = true) :
    ∃ d1 d2 d3 d4 rest, l = 'T' :: d1 :: d2 :: d3 :: d4 :: rest := by
  rcases l with - | ⟨c, - | ⟨d1, - | ⟨d2, - | ⟨d3, - | ⟨d4, rest⟩⟩⟩⟩⟩
  · simp [latheHeadB] at h
  · simp [latheHeadB] at h
  · simp [latheHeadB] at h
  · simp [latheHeadB] at h
  · simp [latheHeadB] at h
  · simp only [latheHeadB, Bool.and_eq_true, beq_iff_eq] at h
    exact ⟨d1, d2, d3, d4, rest, by rw [h.1.1.1.1.1]⟩

theorem millOccB_digit_head {d : Char} {l : List Char} {t : Nat}
    (hd : isDig d = true) (h : millOccB (d :: l) 0 t = true) : False := by
  rw [millOccB_zero] at h
  obtain ⟨rest, heq⟩ := millHeadB_T h
  injection heq with hh htl
  exact isDig_ne_T hd hh

theorem latheOccB_digit_head {d : Char} {l : List Char} {t : Nat}
    (hd : isDig d = true) (h : latheOccB (d :: l) 0 t = true) : False := by
  rw [latheOccB_zero] at h
  obtain ⟨e1, e2, e3, e4, r, heq⟩ := latheHeadB_T h
  injection heq with hh htl
  exact isDig_ne_T hd hh

/-- Every lathe occurrence is collected by the lathe scan. -/
theorem latheOccB_mem :
    ∀ (cs : List Char) (p t : Nat), latheOccB cs p t = true → t ∈ latheFinds cs := by
  intro cs
  induction cs using latheFinds.induct with
  | case1 =>
      intro p t h
      simp [latheOccB, latheHeadB] at h
  | case2 c d1 d2 d3 d4 tail hd ih =>
      intro p t h
      rw [latheFinds, if_pos hd]
      simp only [Bool.and_eq_true, decide_eq_true_eq] at hd
      obtain ⟨⟨⟨⟨hc, h1⟩, h2⟩, h3⟩, h4⟩ := hd
      rcases p with - | p
      · rw [latheOccB_zero] at h
        simp only [latheHeadB, Bool.and_eq_true, beq_iff_eq] at h
        rw [h.2]
        exact List.mem_cons_self _ _
      rcases p with - | p
      · rw [latheOccB_step] at h
        exact (latheOccB_digit_head h1 h).elim
      rcases p with - | p
      · rw [latheOccB_step, latheOccB_step] at h
        exact (latheOccB_digit_head h2 h).elim
      rcases p with - | p
      · rw [latheOccB_step, latheOccB_step, latheOccB_step] at h
        exact (latheOccB_digit_head h3 h).elim
      rcases p with - | p
      · rw [latheOccB_step, latheOccB_step, latheOccB_step, latheOccB_step] at h
        exact (latheOccB_digit_head h4 h).elim
      · rw [latheOccB_step, latheOccB_step, latheOccB_step, latheOccB_step,
          latheOccB_step] at h
        exact List.mem_cons_of_mem _ (ih p t h)
  | case3 c d1 d2 d3 d4 tail hd ih =>
      intro p t h
      rw [latheFinds, if_neg hd]
      rcases p with - | p
      · rw [latheOccB_zero] at h
        simp only [latheHeadB, Bool.and_eq_true, beq_iff_eq] at h
        obtain ⟨⟨⟨⟨⟨hc, k1⟩, k2⟩, k3⟩, k4⟩, -⟩ := h
        exact absurd (by simp [hc, k1, k2, k3, k4]) hd
      · rw [latheOccB_step] at h
        exact ih p t h
  | case4 head rest h1 ih =>
      intro p t h
      rw [latheFinds_eq_skip h1]
      rcases p with - | p
      · rw [latheOccB_zero] at h
        obtain ⟨e1, e2, e3, e4, r, heq⟩ := latheHeadB_T h
        injection heq with hh1 hh2
        exact (h1 _ _ _ _ _ hh2).elim
      · rw [latheOccB_step] at h
        exact ih p t h

/-- Every mill occurrence is collected by the mill scan. -/
theorem millOccB_mem :
    ∀ (cs : List Char) (p t : Nat), millOccB cs p t = true → t ∈ millFinds cs := by
  intro cs
  induction cs using millFinds.induct with
  | case1 =>
      intro p t h
      simp [millOccB, millHeadB] at h
  | case2 head =>
      intro p t h
      rcases p with - | p
      · rw [millOccB_zero] at h
        simp [millHeadB] at h
      · rw [millOccB_step] at h
        simp [millOccB, millHeadB] at h
  | case3 d1 h1 =>
      intro p t h
      simp only [millFinds, if_pos rfl, h1, if_true]
      rcases p with - | p
      · rw [millOccB_zero] at h
        simp only [millHeadB, Bool.and_eq_true, beq_iff_eq] at h
        rw [h.2]
        exact List.mem_cons_self _ _
      rcases p with - | p
      · rw [millOccB_step] at h
        exact (millOccB_digit_head h1 h).elim
      · rw [millOccB_step, millOccB_step] at h
        simp [millOccB, millHeadB] at h
  | case4 d1 h1 ih =>
      intro p t h
      rcases p with - | p
      · rw [millOccB_zero] at h
        simp only [millHeadB, Bool.and_eq_true, beq_iff_eq] at h
        exact absurd h.1.2 h1
      rcases p with - | p
      · rw [millOccB_step, millOccB_zero] at h
        simp [millHeadB] at h
      · rw [millOccB_step, millOccB_step] at h
        simp [millOccB, millHeadB] at h
  | case5 c d1 hc ih =>
      intro p t h
      rcases p with - | p
      · rw [millOccB_zero] at h
        simp only [millHeadB, Bool.and_eq_true, beq_iff_eq] at h
        exact absurd h.1.1 hc
      rcases p with - | p
      · rw [millOccB_step, millOccB_zero] at h
        simp [millHeadB] at h
      · rw [millOccB_step, millOccB_step] at h
        simp [millOccB, millHeadB] at h
  | case6 d1 d2 h1 h2 =>
      intro p t h
      simp only [millFinds, if_pos rfl, h1, h2, if_true]
      rcases p with - | p
      · rw [millOccB_zero] at h
        simp only [millHeadB, Bool.and_eq_true, beq_iff_eq, h2, if_true] at h
        rw [h.2.2]
        exact List.mem_cons_self _ _
      rcases p with - | p
      · rw [millOccB_step] at h
        exact (millOccB_digit_head h1 h).elim
      rcases p with - | p
      · rw [millOccB_step, millOccB_step] at h
        exact (millOccB_digit_head h2 h).elim
      · rw [millOccB_step, millOccB_step, millOccB_step] at h
        simp [millOccB, millHeadB] at h
  | case7 d1 d2 h1 h2 ih =>
      intro p t h
      simp only [millFinds, if_pos rfl, h1, if_true, h2]
      rcases p with - | p
      · rw [millOccB_zero] at h
        simp only [millHeadB, Bool.and_eq_true, beq_iff_eq, h2] at h
        have ht : t = val1 d1 := by simpa using h.2
        rw [ht]
        simp
      rcases p with - | p
      · rw [millOccB_step] at h
        exact (millOccB_digit_head h1 h).elim
      rcases p with - | p
      · rw [millOccB_step, millOccB_step, millOccB_zero] at h
        simp [millHeadB] at h
      · rw [millOccB_step, millOccB_step, millOccB_step] at h
        simp [millOccB, millHeadB] at h
  | case8 d1 d2 h1 ih =>
      intro p t h
      simp only [millFinds, if_pos rfl, h1]
      rcases p with - | p
      · rw [millOccB_zero] at h
        simp only [millHeadB, Bool.and_eq_true, beq_iff_eq] at h
        exact absurd h.1.2 h1
      · rw [millOccB_step] at h
        simp only [if_false, Bool.false_eq_true]
        exact ih p t h
  | case9 c d1 d2 hc ih =>
      intro p t h
      simp only [millFinds, hc]
      rcases p with - | p
      · rw [millOccB_zero] at h
        simp only [millHeadB, Bool.and_eq_true, beq_iff_eq] at h
        exact absurd h.1.1 hc
      · rw [millOccB_step] at h
        simp only [if_false, Bool.false_eq_true]
        exact ih p t h
  | case10 d1 d2 d3 tail h1 h2 h3 ih =>
      intro p t h
      simp only [millFinds, if_pos rfl, h1, h2, h3, if_true]
      rcases p with - | p
      · rw [millOccB_zero] at h
        simp [millHeadB, h1, h2, h3] at h
      · rw [millOccB_step] at h
        exact ih p t h
  | case11 d1 d2 d3 tail h1 h2 h3 ih =>
      intro p t h
      simp only [millFinds, if_pos rfl, h1, h2, h3, if_true]
      rcases p with - | p
      · rw [millOccB_zero] at h
        simp only [millHeadB, Bool.and_eq_true, beq_iff_eq, h2, if_true] at h
        obtain ⟨-, -, ht⟩ := h
        rw [ht]
        exact List.mem_cons_self _ _
      rcases p with - | p
      · rw [millOccB_step] at h
        exact (millOccB_digit_head h1 h).elim
      rcases p with - | p
      · rw [millOccB_step, millOccB_step] at h
        exact (millOccB_digit_head h2 h).elim
      · rw [millOccB_step, millOccB_step, millOccB_step] at h
        exact List.mem_cons_of_mem _ (ih p t h)
  | case12 d1 d2 d3 tail h1 h2 ih =>
      intro p t h
      simp only [millFinds, if_pos rfl, h1, if_true, h2]
      rcases p with - | p
      · rw [millOccB_zero] at h
        simp only [millHeadB, Bool.and_eq_true, beq_iff_eq, h2] at h
        have ht : t = val1 d1 := by simpa using h.2
        rw [ht]
        simp
      rcases p with - | p
      · rw [millOccB_step] at h
        exact (millOccB_digit_head h1 h).elim
      · rw [millOccB_step, millOccB_step] at h
        simp only [if_false, Bool.false_eq_true]
        exact List.mem_cons_of_mem _ (ih p t h)
  | case13 d1 d2 d3 tail h1 ih =>
      intro p t h
      simp only [millFinds, if_pos rfl, h1]
      rcases p with - | p
      · rw [millOccB_zero] at h
        simp only [millHeadB, Bool.and_eq_true, beq_iff_eq] at h
        exact absurd h.1.2 h1
      · rw [millOccB_step] at h
        simp only [if_false, Bool.false_eq_true]
        exact ih p t h
  | case14 c d1 d2 d3 tail hc ih =>
      intro p t h
      simp only [millFinds, hc]
      rcases p with - | p
      · rw [millOccB_zero] at h
        simp only [millHeadB, Bool.and_eq_true, beq_iff_eq] at h
        exact absurd h.1.1 hc
      · rw [millOccB_step] at h
        simp only [if_false, Bool.false_eq_true]
        exact ih p t h

/-! ## From per-line matches to the tool map -/

theorem lookup_some_mem {m : List (Nat × String)} {t : Nat} {d : String}
    (h : List.lookup t m = some d) : (t, d) ∈ m := by
  induction m with
  | nil => simp at h
  | cons e m ih =>
      rcases e with ⟨k, v⟩
      cases hbeq : (t == k) with
      | false =>
          simp [List.lookup_cons, hbeq] at h
          exact List.mem_cons_of_mem _ (ih h)
      | true =>
          simp [List.lookup_cons, hbeq] at h
          have hk : t = k := eq_of_beq hbeq
          subst hk
          rw [← h]
          exact List.mem_cons_self _ _

theorem mem_setdefault_mono {m : List (Nat × String)} {x : Nat × String}
    (k : Nat) (d : String) (h : x ∈ m) : x ∈ setdefault m k d := by
  unfold setdefault
  split
  · exact h
  · exact List.mem_append.mpr (Or.inl h)

theorem mem_foldl_mono (evs : List (Nat × String)) :
    ∀ (m : List (Nat × String)) (x : Nat × String),
      x ∈ m → x ∈ evs.foldl (fun m e => setdefault m e.1 e.2) m := by
  induction evs with
  | nil => intro m x h; simpa using h
  | cons e evs ih =>
      intro m x h
      rw [List.foldl_cons]
      exact ih _ _ (mem_setdefault_mono _ _ h)

theorem key_exists_foldl (evs : List (Nat × String)) :
    ∀ (m : List (Nat × String)) (t : Nat), t ∈ evs.map Prod.fst →
      ∃ d, (t, d) ∈ evs.foldl (fun m e => setdefault m e.1 e.2) m := by
  induction evs with
  | nil => intro m t h; simp at h
  | cons e evs ih =>
      intro m t h
      rw [List.foldl_cons]
      rw [List.map_cons] at h
      rcases List.mem_cons.mp h with h' | h'
      · subst h'
        by_cases hm : (List.lookup e.1 m).isSome
        · obtain ⟨d, hd⟩ := Option.isSome_iff_exists.mp hm
          refine ⟨d, mem_foldl_mono _ _ _ (mem_setdefault_mono _ _ ?_)⟩
          exact lookup_some_mem hd
        · refine ⟨e.2, mem_foldl_mono _ _ _ ?_⟩
          unfold setdefault
          rw [if_neg hm]
          exact List.mem_append.mpr (Or.inr (by simp))
      · exact ih _ _ h'

theorem getD_of_getElem? {l : List String} {i : Nat} {a : String}
    (h : l[i]? = some a) : l.getD i "" = a := by
  rw [List.getD_eq_getElem?_getD, h]
  rfl

/-- Any tool number matched on line `i` (by either convention) is a key of
the extracted tool map. -/
theorem key_mem_extract_tools {text : String} {i : Nat} {line : String} {t : Nat}
    (hline : (splitlines text)[i]? = some line)
    (hmem : t ∈ latheFinds line.data ++ millFinds line.data) :
    ∃ d, (t, d) ∈ extract_tools text := by
  have hi : i < (splitlines text).length := by
    rcases List.getElem?_eq_some.mp hline with ⟨h, -⟩
    exact h
  have hev : (t, _nearest_good_comment (splitlines text) i) ∈ toolEvents text := by
    unfold toolEvents
    refine List.mem_flatMap.mpr ⟨i, List.mem_range.mpr hi, ?_⟩
    unfold lineEvents
    rw [getD_of_getElem? hline]
    exact List.mem_map.mpr ⟨t, hmem, rfl⟩
  have hkey : t ∈ (toolEvents text).map Prod.fst :=
    List.mem_map.mpr ⟨_, hev, rfl⟩
  exact key_exists_foldl _ _ _ hkey

/-! ## Claim theorems -/

/-- C1: first-occurrence-wins.  For every input text in which the same tool
number is invoked more than once (the filtered event list for that tool has a
first element and a non-empty remainder), the description stored in the tool
map returned by `extract_tools` is the one resolved at the first invocation in
document order; later invocations never overwrite it.  (Events are listed
line by line in document order; all events of one line carry the same
resolved description, so the first event's description is the description
resolved at the first invocation in document order.) -/
theorem C1_first_occurrence_wins (text : String) (t : Nat) (d : String)
    (rest : List (Nat × String))
    (h1 : (toolEvents text).filter (fun e => e.1 == t) = (t, d) :: rest)
    (h2 : rest ≠ []) :
    List.lookup t (extract_tools text) = some d := by
  rw [extract_tools_lookup, find?_of_filter_cons h1]
  rfl

/-- Witness for C1 on a text invoking `T05` twice with different comments. -/
theorem C1_witness :
    ((toolEvents "T05 (DRILL)\nT05 (TAP)").filter (fun e => e.1 == 5) =
        (5, "DRILL") :: [(5, "TAP")] ∧
      ([(5, "TAP")] : List (Nat × String)) ≠ []) ∧
      List.lookup 5 (extract_tools "T05 (DRILL)\nT05 (TAP)") = some "DRILL" :=
  ⟨⟨by decide, by decide⟩,
    C1_first_occurrence_wins "T05 (DRILL)\nT05 (TAP)" 5 "DRILL" [(5, "TAP")]
      (by decide) (by decide)⟩

/-- C2 counterexample: the claim says every key lies in 1–99, but the input
`T0` produces the key 0 (the mill pattern `T(\d{1,2})(?!\d)` accepts `T0`
and `int("0") = 0`). -/
theorem C2_counterexample :
    (0, "") ∈ extract_tools "T0" ∧ ¬(1 ≤ 0) := by
  exact ⟨by decide, by decide⟩

/-- C2 (amended): for every input text, the tool map returned by
`extract_tools` has keys in the range 0–99 (naturals bounded by 99; the
lower bound 0 holds by the key type) and string values (by the type of the
map). -/
theorem C2_keys_in_range (text : String) (t : Nat) (d : String)
    (h : (t, d) ∈ extract_tools text) : t ≤ 99 := by
  rcases mem_foldl_setdefault (toolEvents text) [] (t, d) h with h' | h'
  · simp at h'
  · rw [List.mem_map] at h'
    obtain ⟨e, he, hfst⟩ := h'
    unfold toolEvents at he
    rw [List.mem_flatMap] at he
    obtain ⟨i, hi, he⟩ := he
    unfold lineEvents at he
    rw [List.mem_map] at he
    obtain ⟨u, hu, hue⟩ := he
    have hkey : e.1 = u := by rw [← hue]
    have hfst' : e.1 = t := hfst
    rw [← hfst', hkey]
    rcases List.mem_append.mp hu with h'' | h''
    · exact latheFinds_le _ _ h''
    · exact millFinds_le _ _ h''

/-- Witness for C2 at a concrete extracted pair. -/
theorem C2_witness :
    (5, "DRILL") ∈ extract_tools "T05 (DRILL)" ∧ 5 ≤ 99 :=
  ⟨by decide, C2_keys_in_range "T05 (DRILL)" 5 "DRILL" (by decide)⟩

/-- C4: mill convention.  `extract_tools` records a tool number for every
occurrence of `T` followed by exactly one or two digits not followed by a
further digit (`millOccB`), reading the digits as the tool number; the line
`T1 (FACE MILL)` yields exactly the map `{1 : "FACE MILL"}`; and `T123` is
never read as a mill tool — it yields the empty map. -/
theorem C4_mill_convention :
    (∀ (text : String) (i : Nat) (line : String) (p t : Nat),
        (splitlines text)[i]? = some line →
        millOccB line.data p t = true →
        ∃ d, (t, d) ∈ extract_tools text) ∧
      extract_tools "T1 (FACE MILL)" = [(1, "FACE MILL")] ∧
      extract_tools "T123" = [] := by
  refine ⟨?_, by decide, by decide⟩
  intro text i line p t hline hocc
  exact key_mem_extract_tools hline
    (List.mem_append.mpr (Or.inr (millOccB_mem _ _ _ hocc)))

/-- Witness for C4 at the mill occurrence in `T1 (FACE MILL)`. -/
theorem C4_witness :
    ((splitlines "T1 (FACE MILL)")[0]? = some "T1 (FACE MILL)" ∧
        millOccB "T1 (FACE MILL)".data 0 1 = true) ∧
      ∃ d, (1, d) ∈ extract_tools "T1 (FACE MILL)" :=
  ⟨⟨by decide, by decide⟩,
    C4_mill_convention.1 "T1 (FACE MILL)" 0 "T1 (FACE MILL)" 0 1
      (by decide) (by decide)⟩

/-- C5: lathe convention.  `extract_tools` records a tool number for every
occurrence of `T` followed by four consecutive digits (`latheOccB`), taking
the value of the first two digits and ignoring the remaining two; the line
`T0404 (ROUGH TURN)` yields exactly the map `{4 : "ROUGH TURN"}`. -/
theorem C5_lathe_convention :
    (∀ (text : String) (i : Nat) (line : String) (p t : Nat),
        (splitlines text)[i]? = some line →
        latheOccB line.data p t = true →
        ∃ d, (t, d) ∈ extract_tools text) ∧
      extract_tools "T0404 (ROUGH TURN)" = [(4, "ROUGH TURN")] := by
  refine ⟨?_, by decide⟩
  intro text i line p t hline hocc
  exact key_mem_extract_tools hline
    (List.mem_append.mpr (Or.inl (latheOccB_mem _ _ _ hocc)))

/-- Witness for C5 at the lathe occurrence in `T0404 (ROUGH TURN)`. -/
theorem C5_witness :
    ((splitlines "T0404 (ROUGH TURN)")[0]? = some "T0404 (ROUGH TURN)" ∧
        latheOccB "T0404 (ROUGH TURN)".data 0 4 = true) ∧
      ∃ d, (4, d) ∈ extract_tools "T0404 (ROUGH TURN)" :=
  ⟨⟨by decide, by decide⟩,
    C5_lathe_convention.1 "T0404 (ROUGH TURN)" 0 "T0404 (ROUGH TURN)" 0 4
      (by decide) (by decide)⟩

/-! ## C6: the comment proximity resolver -/

theorem lookBack_eq_findSome? (lines : List String) :
    ∀ (n j : Nat),
      lookBack lines j n =
        (((List.range n).map fun k => j - k).findSome?
            fun j' => goodFrom (_comments_on_line (lines.getD j' ""))).getD "" := by
  intro n
  induction n with
  | zero => intro j; simp [lookBack]
  | succ n ih =>
      intro j
      rw [List.range_succ_eq_map]
      simp only [List.map_cons, List.map_map, List.findSome?_cons, Nat.sub_zero]
      rw [lookBack]
      cases hg : goodFrom (_comments_on_line (lines.getD j "")) with
      | some c => simp
      | none =>
          rw [ih (j - 1)]
          have hmap : ((List.range n).map fun k => (j - 1) - k) =
              (List.range n).map ((fun k => j - k) ∘ Nat.succ) := by
            refine List.map_congr_left ?_
            intro k hk
            simp only [Function.comp]
            omega
          rw [hmap]

/-- C6: the comment proximity resolver.  For every line sequence, line index
and back-window size, `_nearest_good_comment` first tests the parenthesised
substrings of the indexed line in reverse appearance order and returns the
first candidate that, after stripping and removing a leading capital
letter-dash prefix, is not classified as noise; failing that it examines up
to the back-window number of prior lines, nearest first, with the same
per-line rule; if the window is exhausted it returns the empty string.  This
is stated as equality with the spec-side resolver `nearest_comment_spec`. -/
theorem C6_nearest_comment (lines : List String) (idx w : Nat) :
    _nearest_good_comment lines idx w = nearest_comment_spec lines idx w := by
  unfold _nearest_good_comment nearest_comment_spec
  rw [List.range_succ_eq_map]
  simp only [List.map_cons, List.map_map, List.findSome?_cons, Nat.sub_zero]
  cases hg : goodFrom (_comments_on_line (lines.getD idx "")) with
  | some c => simp
  | none =>
      rw [lookBack_eq_findSome? lines (min idx w) (idx - 1)]
      have hmap : ((List.range (min idx w)).map fun k => (idx - 1) - k) =
          (List.range (min idx w)).map ((fun k => idx - k) ∘ Nat.succ) := by
        refine List.map_congr_left ?_
        intro k hk
        simp only [Function.comp]
        omega
      rw [hmap]

/-! ## C3: program name, strategy 2 -/

theorem s2aux_true_eq (ls : List String) :
    s2aux true ls =
      ls.findSome? fun l => if hasPercent l then none else matchParenOnly l := by
  induction ls with
  | nil => simp [s2aux]
  | cons l ls ih =>
      rw [s2aux, List.findSome?_cons]
      by_cases hp : hasPercent l
      · simp [hp, ih]
      · simp only [hp, Bool.false_eq_true, if_false, if_true]
        cases hm : matchParenOnly l with
        | some n => simp [hm]
        | none => simp [hm, ih]

theorem s2aux_false_eq (ls : List String) :
    s2aux false ls = strategy2_amended ls := by
  induction ls with
  | nil => simp [s2aux, strategy2_amended, firstPercentIdx]
  | cons l ls ih =>
      rw [s2aux]
      by_cases hp : hasPercent l
      · rw [if_pos hp, s2aux_true_eq]
        unfold strategy2_amended firstPercentIdx
        rw [if_pos hp]
        simp
      · have hstep : strategy2_amended (l :: ls) = strategy2_amended ls := by
          unfold strategy2_amended
          rw [firstPercentIdx, if_neg hp]
          cases hfi : firstPercentIdx ls with
          | none => rfl
          | some i => simp [List.drop_succ_cons]
        rw [if_neg hp]
        simp only [Bool.false_eq_true, if_false]
        rw [ih, ← hstep]

/-- C3 counterexample: on the input `%` newline `(50%)`, no line matches the
strategy-1 pattern and the line `(50%)` is, after the percent marker,
entirely a parenthesised group with trimmed content `50%` — so the claim
demands the name `50%` — yet `extract_program_name` returns `none`, because
the candidate line itself contains `%` and is skipped by the loop. -/
theorem C3_counterexample :
    ((splitlines "%\n(50%)").all fun l => (matchOHeader l).isNone) = true ∧
      strategy2_claim (splitlines "%\n(50%)") = some "50%" ∧
      extract_program_name "%\n(50%)" = none :=
  ⟨by decide, by decide, by decide⟩

/-- C3 (amended): program-name strategy 2.  For every input text in which no
line matches the strategy-1 O-header pattern, `extract_program_name` returns
the trimmed parenthesised content of the first line after the first
percent-marker line that does not itself contain `%` and is entirely a
parenthesised group; when no line qualifies (or no percent line exists) the
result is `none` — absence, not an error.  The spec's own example yields
`WIDGET BRACKET`. -/
theorem C3_strategy2 :
    (∀ text : String,
        ((splitlines text).all fun l => (matchOHeader l).isNone) = true →
          extract_program_name text = strategy2_amended (splitlines text)) ∧
      extract_program_name "%\n(WIDGET BRACKET)" = some "WIDGET BRACKET" := by
  constructor
  · intro text h
    have hfs : (splitlines text).findSome? matchOHeader = none := by
      refine List.findSome?_eq_none_iff.mpr ?_
      intro l hl
      exact Option.isNone_iff_eq_none.mp (List.all_eq_true.mp h l hl)
    show (match (splitlines text).findSome? matchOHeader with
          | some n => some n
          | none => s2aux false (splitlines text)) =
        strategy2_amended (splitlines text)
    rw [hfs]
    exact s2aux_false_eq _
  · decide

/-- Witness for C3 on the spec's strategy-2 example. -/
theorem C3_witness :
    ((splitlines "%\n(WIDGET BRACKET)").all fun l => (matchOHeader l).isNone) = true ∧
      extract_program_name "%\n(WIDGET BRACKET)" =
        strategy2_amended (splitlines "%\n(WIDGET BRACKET)") :=
  ⟨by decide, C3_strategy2.1 "%\n(WIDGET BRACKET)" (by decide)⟩

/-! ## C7: program name, strategy 1 -/

/-- C7 counterexample: the line `G0 O1 (X)` matches the claim's pattern —
word-start, `O`, digits, whitespace, parenthesised group, end of line — with
name `X`, yet `extract_program_name` returns `none`: the code anchors the
pattern at the start of the line (`^\s*O…`), not at a word boundary. -/
theorem C7_counterexample :
    wbOHeader "G0 O1 (X)" = some "X" ∧
      extract_program_name "G0 O1 (X)" = none :=
  ⟨by decide, by decide⟩

theorem findSome?_of_first {α β : Type} (f : α → Option β) :
    ∀ (l : List α) (i : Nat) (x : α) (n : β),
      l[i]? = some x → f x = some n →
      (∀ j, j < i → ∀ y, l[j]? = some y → f y = none) →
      l.findSome? f = some n := by
  intro l
  induction l with
  | nil => intro i x n h; simp at h
  | cons a as ih =>
      intro i x n hx hf hprev
      rw [List.findSome?_cons]
      rcases i with - | i
      · simp only [List.getElem?_cons_zero, Option.some.injEq] at hx
        subst hx
        rw [hf]
      · have h0 : f a = none := hprev 0 (Nat.succ_pos i) a (by simp)
        rw [h0]
        exact ih i x n (by simpa using hx) hf
          (fun j hj y hy => hprev (j + 1) (by omega) y (by simpa using hy))

/-- C7 (amended): program-name strategy 1, with the pattern anchored at the
start of the line after optional whitespace (the code's `^\s*O\d+\s*\((.+?)\)\s*$`)
rather than at a word-start: when line `i` is the first line matching the
pattern, `extract_program_name` returns its trimmed parenthetical content;
in particular `O1234 (PART NUMBER 99)` yields `PART NUMBER 99`. -/
theorem C7_strategy1 :
    (∀ (text : String) (i : Nat) (line name : String),
        (splitlines text)[i]? = some line →
        matchOHeader line = some name →
        (∀ j, j < i → ∀ l', (splitlines text)[j]? = some l' →
          matchOHeader l' = none) →
        extract_program_name text = some name) ∧
      extract_program_name "O1234 (PART NUMBER 99)" = some "PART NUMBER 99" := by
  constructor
  · intro text i line name hline hm hprev
    have hfs : (splitlines text).findSome? matchOHeader = some name :=
      findSome?_of_first _ _ i line name hline hm hprev
    show (match (splitlines text).findSome? matchOHeader with
          | some n => some n
          | none => s2aux false (splitlines text)) = some name
    rw [hfs]
  · decide

/-- Witness for C7 on the spec's strategy-1 example. -/
theorem C7_witness :
    ((splitlines "O1234 (PART NUMBER 99)")[0]? = some "O1234 (PART NUMBER 99)" ∧
        matchOHeader "O1234 (PART NUMBER 99)" = some "PART NUMBER 99" ∧
        (∀ j, j < 0 → ∀ l', (splitlines "O1234 (PART NUMBER 99)")[j]? = some l' →
          matchOHeader l' = none)) ∧
      extract_program_name "O1234 (PART NUMBER 99)" = some "PART NUMBER 99" :=
  ⟨⟨by decide, by decide, fun j hj => absurd hj (Nat.not_lt_zero j)⟩,
    C7_strategy1.1 "O1234 (PART NUMBER 99)" 0 "O1234 (PART NUMBER 99)"
      "PART NUMBER 99" (by decide) (by decide)
      (fun j hj => absurd hj (Nat.not_lt_zero j))⟩

/-! ## C8: the formatter -/

/-- C8 counterexample: for the map `{1 : " "}` the claim's renderer prints
`T01 -  ` (the description `" "` is non-empty), but `format_tool_list`
strips the description first and prints `T01` alone. -/
theorem C8_counterexample :
    specFormatClaim (some "X") [(1, " ")] ≠ format_tool_list (some "X") [(1, " ")] ∧
      format_tool_list (some "X") [(1, " ")] = "Tool List for ( X ).\n\nT01" :=
  ⟨by decide, by decide⟩

theorem insNat_eq (x : Nat) :
    ∀ l : List Nat, insNat x l = List.orderedInsert (· ≤ ·) x l := by
  intro l
  induction l with
  | nil => rfl
  | cons y ys ih => simp [insNat, List.orderedInsert, ih]

theorem sortNats_eq :
    ∀ l : List Nat, sortNats l = List.insertionSort (· ≤ ·) l := by
  intro l
  induction l with
  | nil => rfl
  | cons y ys ih =>
      show insNat y (sortNats ys) = _
      rw [ih, insNat_eq]
      rfl

theorem joinNL_cons_of_ne (a : String) (l : List String) (h : l ≠ []) :
    joinNL (a :: l) = a ++ "\n" ++ joinNL l := by
  cases l with
  | nil => exact absurd rfl h
  | cons b bs => rfl

theorem app_blank (a b : String) :
    a ++ "\n" ++ ("" ++ "\n" ++ b) = a ++ "\n" ++ "\n" ++ b := by
  simp only [String.empty_append, String.append_assoc]

/-- C8 (amended): the formatter.  For every program name and tool map,
`format_tool_list` produces the header `Tool List for ( <name-or-UNKNOWN
PROGRAM> ).`, a blank line, then one line per tool sorted by ascending tool
number — with the description stripped of surrounding whitespace, rendered
`T<NN> - <stripped-description>` when the stripped description is non-empty
and `T<NN>` alone otherwise, NN zero-padded to at least two digits — and
`(No tools found)` for an empty map; the DEMO example renders exactly as the
claim states. -/
theorem C8_format :
    (∀ (name : Option String) (tools : List (Nat × String)),
        format_tool_list name tools = specFormatStrip name tools) ∧
      format_tool_list (some "DEMO") [(1, "FACE MILL"), (4, "")] =
        "Tool List for ( DEMO ).\n\nT01 - FACE MILL\nT04" ∧
      (∀ name : Option String,
        format_tool_list name [] =
          "Tool List for ( " ++ headerName name ++ " ).\n\n(No tools found)") := by
  refine ⟨?_, by decide, ?_⟩
  · intro name tools
    simp only [format_tool_list, specFormatStrip]
    by_cases ht : tools.isEmpty
    · rw [if_pos ht, if_pos ht]
      simp only [joinNL, String.append_assoc, String.empty_append]
    · rw [if_neg ht, if_neg ht, sortNats_eq]
      have hne :
          ((List.insertionSort (· ≤ ·) (tools.map Prod.fst)).map (toolLine tools)) ≠ [] := by
        have h1 : tools.map Prod.fst ≠ [] := by
          cases tools with
          | nil => simp at ht
          | cons e es => simp
        have h2 : (List.insertionSort (· ≤ ·) (tools.map Prod.fst)).length =
            (tools.map Prod.fst).length :=
          (List.perm_insertionSort _ _).length_eq
        intro hl
        rw [List.map_eq_nil_iff] at hl
        rw [hl] at h2
        exact h1 (List.eq_nil_of_length_eq_zero h2.symm)
      rw [joinNL_cons_of_ne _ _ (by simp), joinNL_cons_of_ne _ _ hne, app_blank]
      rfl
  · intro name
    show joinNL [_, "", "(No tools found)"] = _
    simp [joinNL, String.append_assoc]

/-! ## C9 and C10 -/

/-- C9: totality.  The core parsing functions are total: for every string
input, `is_noise_comment`, `extract_program_name` and `extract_tools` each
produce a (possibly empty or placeholder) result, and `format_tool_list`
renders those results to a report string; no input makes the core fail.
(In this embedding every function is a total computable definition; the
existentials exhibit the full pipeline's results.) -/
theorem C9_totality (s : String) :
    ∃ (b : Bool) (n : Option String) (m : List (Nat × String)) (r : String),
      is_noise_comment s = b ∧ extract_program_name s = n ∧
        extract_tools s = m ∧ format_tool_list n m = r :=
  ⟨_, _, _, _, rfl, rfl, rfl, rfl⟩

/-- C10: `format_tool_list` renders the header `Tool List for ( UNKNOWN
PROGRAM ).` not only for an absent program name but also for the empty
string (Python `or` treats both as falsy), and an empty extracted name is
possible: a header whose parenthetical holds only whitespace, such as
`O1 ( )`, extracts as the empty string. -/
theorem C10_empty_name_unknown :
    (∀ tools : List (Nat × String),
        format_tool_list (some "") tools = format_tool_list none tools) ∧
      extract_program_name "O1 ( )" = some "" := by
  constructor
  · intro tools
    rfl
  · decide

end GCode
